import Mathlib

/-
Verification of the static-analysis core of cargo-syntax: the project scanner
and token accounting (src/tokens.rs) and the deep duplicate/near-duplicate
analyzer (src/commands/deep.rs), shallowly embedded in Lean.

External dependencies of the code are modelled as explicit parameters:
the o200k BPE tokenizer (tiktoken-rs) as a parameter `ct : String → Nat`,
the SipHash-based `DefaultHasher` behind `hash_str` as a parameter
`hash : String → Nat`, and the Unicode `char::is_alphanumeric` table as a
parameter `isAlnum : Char → Bool`.  The iteration order of the Rust
`HashMap` over its buckets is unspecified; the cluster builder therefore
takes the bucket enumeration `order` as an explicit argument, with
`clusterKeys` providing one canonical enumeration.
-/

namespace CargoSyntax

/-- Opening brace character, written via its code point. -/
def lbrace : Char := Char.ofNat 123

/-- Closing brace character, written via its code point. -/
def rbrace : Char := Char.ofNat 125

/-- Number of bytes of the UTF-8 encoding of a character. -/
def charBytes (c : Char) : Nat :=
  if c.toNat < 128 then 1
  else if c.toNat < 2048 then 2
  else if c.toNat < 65536 then 3
  else 4

/-- UTF-8 byte length of a string; this is what Rust `str::len` returns. -/
def utf8Len (s : String) : Nat :=
  (s.data.map charBytes).sum

/-- Unicode White_Space predicate, as implemented by Rust `char::is_whitespace`:
the code points U+0009..U+000D, U+0020, U+0085, U+00A0, U+1680,
U+2000..U+200A, U+2028, U+2029, U+202F, U+205F and U+3000. -/
def rustIsWhitespace (c : Char) : Bool :=
  (9 ≤ c.toNat && c.toNat ≤ 13) || c.toNat == 32 || c.toNat == 133 ||
  c.toNat == 160 || c.toNat == 5760 || (8192 ≤ c.toNat && c.toNat ≤ 8202) ||
  c.toNat == 8232 || c.toNat == 8233 || c.toNat == 8239 || c.toNat == 8287 ||
  c.toNat == 12288

/-- Trim of Unicode whitespace at both ends of a string (Rust `str::trim`). -/
def rustTrim (s : String) : String :=
  String.mk (((s.data.dropWhile rustIsWhitespace).reverse.dropWhile rustIsWhitespace).reverse)

/-- Trim of Unicode whitespace at the end only (Rust `str::trim_end`). -/
def rustTrimEnd (s : String) : String :=
  String.mk ((s.data.reverse.dropWhile rustIsWhitespace).reverse)

/-- Helper splitting a character list at newline characters; the accumulator
holds the current line reversed. -/
def splitNLAux : List Char → List Char → List String
  | [], acc => [String.mk acc.reverse]
  | c :: cs, acc =>
      if c = '\n' then String.mk acc.reverse :: splitNLAux cs []
      else splitNLAux cs (c :: acc)

/-- Split a string at newline characters; always returns at least one piece,
like Rust `str::split` at a newline pattern. -/
def splitNL (s : String) : List String :=
  splitNLAux s.data []

/-- Strip one trailing carriage return, if present. -/
def stripCR (l : String) : String :=
  match l.data.getLast? with
  | some c => if c = '\r' then String.mk l.data.dropLast else l
  | none => l

/-- Rust `str::lines`: split at newlines, strip a carriage return that sits
directly before a newline, and do not yield a final empty line when the
string ends with a newline. -/
def rustLines (s : String) : List String :=
  let parts := splitNL s
  match parts.getLast? with
  | none => []
  | some last =>
      let front := parts.dropLast.map stripCR
      if last = "" then front else front ++ [last]

/-- Helper for whitespace splitting; the accumulator holds the current word
reversed. -/
def splitWsAux : List Char → List Char → List String
  | [], acc => if acc = [] then [] else [String.mk acc.reverse]
  | c :: cs, acc =>
      if rustIsWhitespace c then
        if acc = [] then splitWsAux cs []
        else String.mk acc.reverse :: splitWsAux cs []
      else splitWsAux cs (c :: acc)

/-- Rust `str::split_whitespace`: the maximal runs of non-whitespace
characters, in order. -/
def splitWhitespace (s : String) : List String :=
  splitWsAux s.data []

/-- Join a list of strings with newlines, mirroring `join("\n")` on a vector
of string slices. -/
def joinNL : List String → String
  | [] => ""
  | [l] => l
  | l :: rest => l ++ "\n" ++ joinNL rest

/-- Join a list of strings with single spaces (`join(" ")`). -/
def joinSpace : List String → String
  | [] => ""
  | [l] => l
  | l :: rest => l ++ " " ++ joinSpace rest

/-- Whether the character list `pat` occurs as a contiguous subsequence of
`l` (Rust `str::contains` on a string pattern). -/
def containsSeq (pat : List Char) : List Char → Bool
  | [] => pat.isPrefixOf []
  | c :: cs => pat.isPrefixOf (c :: cs) || containsSeq pat cs

/-! Embedding of src/tokens.rs. -/

/-- Per-file statistics (`FileStats` in src/tokens.rs); the tokens-per-line
ratio is an `f64` in the source, modelled as a rational. -/
structure FileStats where
  path : String
  content : String
  lines : Nat
  tokens : Nat
  ratio : ℚ
deriving DecidableEq

/-- Project-wide statistics (`ProjectStats` in src/tokens.rs). -/
structure ProjectStats where
  files : List FileStats
  total_lines : Nat
  total_tokens : Nat
  code_lines : Nat
  comment_lines : Nat
  blank_lines : Nat
deriving DecidableEq

/-- Tokens-per-line ratio (`ratio` in src/tokens.rs): zero when there are no
lines, the exact quotient otherwise. -/
def ratio (tokens lines : Nat) : ℚ :=
  if 0 < lines then (tokens : ℚ) / (lines : ℚ) else 0

/-- Percentage helper (`pct` in src/tokens.rs). -/
def pct (part total : Nat) : ℚ :=
  if 0 < total then ((part : ℚ) / (total : ℚ)) * 100 else 0

/-- Efficiency grade (`efficiency_grade` in src/tokens.rs): a guard chain on
the ratio returning a triple of string literals, translated arm for arm. -/
def efficiency_grade (r : ℚ) : String × String × String :=
  if r ≤ 5 then ("A%2B", "brightgreen", "A+")
  else if r ≤ 7 then ("A", "green", "A")
  else if r ≤ 9 then ("B", "blue", "B")
  else if r ≤ 12 then ("C", "orange", "C")
  else ("D", "red", "D")

/-- One step of the line classifier (`count_line_types` in src/tokens.rs):
classify the remaining lines given the `in_block_comment` flag, returning
`(code, comments, blanks)`. -/
def classifyLines : List String → Bool → Nat × Nat × Nat
  | [], _ => (0, 0, 0)
  | l :: rest, inBlock =>
      let t := rustTrim l
      if t = "" then
        let r := classifyLines rest inBlock
        (r.1, r.2.1, r.2.2 + 1)
      else if inBlock then
        let r := classifyLines rest (!containsSeq ("*/").data t.data)
        (r.1, r.2.1 + 1, r.2.2)
      else if ("//").data.isPrefixOf t.data then
        let r := classifyLines rest inBlock
        (r.1, r.2.1 + 1, r.2.2)
      else if ("/*").data.isPrefixOf t.data then
        let r := classifyLines rest (!containsSeq ("*/").data t.data)
        (r.1, r.2.1 + 1, r.2.2)
      else
        let r := classifyLines rest inBlock
        (r.1 + 1, r.2.1, r.2.2)

/-- The line classifier of src/tokens.rs, entered with the block-comment flag
clear. -/
def count_line_types (content : String) : Nat × Nat × Nat :=
  classifyLines (rustLines content) false

/-- The per-file record built by one iteration of the scanner loop in
`scan_project`, given the token counter `ct`. -/
def mkFileStats (ct : String → Nat) (path content : String) : FileStats :=
  { path := path
    content := content
    lines := (rustLines content).length
    tokens := ct content
    ratio := ratio (ct content) (rustLines content).length }

/-- One iteration of the accumulating loop of `scan_project`. -/
def scanStep (ct : String → Nat) (st : ProjectStats) (pc : String × String) : ProjectStats :=
  let f := mkFileStats ct pc.1 pc.2
  let r := count_line_types pc.2
  { files := st.files ++ [f]
    total_lines := st.total_lines + f.lines
    total_tokens := st.total_tokens + f.tokens
    code_lines := st.code_lines + r.1
    comment_lines := st.comment_lines + r.2.1
    blank_lines := st.blank_lines + r.2.2 }

/-- The project scanner (`scan_project` in src/tokens.rs).  The walk of the
filesystem and the fallible reads are modelled by the input list `inputs` of
`(path, content)` pairs for the files that were read successfully, in walker
order; the tokenizer is the parameter `ct`. -/
def scan_project (ct : String → Nat) (inputs : List (String × String)) : ProjectStats :=
  inputs.foldl (scanStep ct) ⟨[], 0, 0, 0, 0, 0⟩

/-- Modelled from the spec: `count_tokens` wraps the external o200k BPE
vocabulary (tiktoken-rs), which is not part of this repository.  The spec
fixes exactly two facts about it: the empty string counts zero tokens, and
every non-empty string counts at least one. -/
def TokenizerSpec (ct : String → Nat) : Prop :=
  ct ("") = 0 ∧ ∀ s : String, s ≠ "" → 1 ≤ ct s

/-! Embedding of src/commands/deep.rs.  `WINDOW_SIZE` is 3 throughout. -/

namespace deep

/-- Whitespace normalization of a line (`normalize_line` in deep.rs):
split on Unicode whitespace and rejoin with single spaces. -/
def normalize_line (line : String) : String :=
  joinSpace (splitWhitespace line)

/-- A window fingerprint (`Fingerprint` in deep.rs), together with the hash
bucket key it was filed under. -/
structure Fingerprint where
  key : Nat
  file_idx : Nat
  start_line : Nat
deriving DecidableEq

/-- A cross-file duplicate cluster (`DuplicateCluster` in deep.rs); each
occurrence is `(file_idx, start, end)`. -/
structure DuplicateCluster where
  occurrences : List (Nat × Nat × Nat)
  preview : String
  tokens_per_instance : Nat
deriving DecidableEq

/-- A near-duplicate function pair (`NearDuplicate` in deep.rs). -/
structure NearDuplicate where
  file_idx : Nat
  fn_a : String × Nat
  fn_b : String × Nat
  savings : Nat
deriving DecidableEq

/-- The deep-analysis report (`DeepResult` in deep.rs). -/
structure DeepResult where
  clusters : List DuplicateCluster
  near_dupes : List NearDuplicate
  total_savings : Nat
deriving DecidableEq

/-- A window of three consecutive non-blank normalized lines: the index of
its first line and the three line texts. -/
structure Win where
  start : Nat
  a : String
  b : String
  c : String
deriving DecidableEq

/-- All windows of three consecutive non-blank lines of a file, mirroring
`non_blank.windows(WINDOW_SIZE)`: `s` is the absolute index of the current
head line. -/
def windowsFrom : Nat → List String → List Win
  | _, [] => []
  | s, l :: rest =>
      let tail := windowsFrom (s + 1) rest
      if l = "" then tail
      else
        match (rest.filter (fun x => x != "")).take 2 with
        | [b, c] => ⟨s, l, b, c⟩ :: tail
        | _ => tail

/-- The normalized window text at an occurrence (`get_window_text` in
deep.rs): the first three non-blank normalized lines at or after `start`,
joined by newlines. -/
def get_window_text (normalized : List (List String)) (fileIdx start : Nat) : String :=
  joinNL ((((normalized.getD fileIdx []).drop start).filter (fun l => l != "")).take 3)

/-- Loop body of `find_window_end`: `i` is the absolute index of the head
line, `coll` the number of non-blank lines seen, `e` the `end` variable. -/
def fweAux : List String → Nat → Nat → Nat → Nat
  | [], _, _, e => e
  | l :: rest, i, coll, _ =>
      let coll1 := if l = "" then coll else coll + 1
      if 3 ≤ coll1 then i else fweAux rest (i + 1) coll1 i

/-- The end line of a window (`find_window_end` in deep.rs): walk from
`start` until three non-blank lines have been collected. -/
def find_window_end (lines : List String) (start : Nat) : Nat :=
  fweAux (lines.drop start) start 0 start

/-- Loop body of `get_original_window`: as `fweAux`, but blankness is tested
by trimming the original line. -/
def gowAux : List String → Nat → Nat → Nat → Nat
  | [], _, _, e => e
  | l :: rest, i, coll, _ =>
      let coll1 := if rustTrim l = "" then coll else coll + 1
      if 3 ≤ coll1 then i else gowAux rest (i + 1) coll1 i

/-- The original-text preview of a window (`get_original_window` in deep.rs):
the source lines from `start_line` through the third non-blank original line,
clamped to the file end. -/
def get_original_window (content : String) (start_line : Nat) : String :=
  let lines := rustLines content
  let e := gowAux (lines.drop start_line) start_line 0 start_line
  joinNL ((lines.drop start_line).take (min e (lines.length - 1) + 1 - start_line))

/-- The fingerprints contributed by one file: one per window whose combined
text is at least 20 bytes, keyed by the hash of that text. -/
def fileFingerprints (hash : String → Nat) (fidx : Nat) (lines : List String) :
    List Fingerprint :=
  (windowsFrom 0 lines).filterMap (fun w =>
    let combined := joinNL [w.a, w.b, w.c]
    if utf8Len combined < 20 then none
    else some ⟨hash combined, fidx, w.start⟩)

/-- All fingerprints of the project, in generation order (file order, then
window order); the hash map of deep.rs groups these by `key`. -/
def allFingerprints (hash : String → Nat) (normalized : List (List String)) :
    List Fingerprint :=
  (normalized.enum.map (fun p => fileFingerprints hash p.1 p.2)).flatten

/-- One canonical enumeration of the distinct bucket keys.  The Rust
`HashMap` yields its buckets in an unspecified, seed-dependent order;
theorems therefore quantify over the enumeration. -/
def clusterKeys (hash : String → Nat) (normalized : List (List String)) : List Nat :=
  ((allFingerprints hash normalized).map (fun fp => fp.key)).dedup

/-- Savings estimate of a cluster (`estimate_savings` in deep.rs):
`tokens_per_instance * (instances - 1) * 80 / 100` in integer arithmetic,
zero for at most one occurrence. -/
def estimate_savings (c : DuplicateCluster) : Nat :=
  if c.occurrences.length ≤ 1 then 0
  else c.tokens_per_instance * (c.occurrences.length - 1) * 80 / 100

/-- The cluster built from one hash bucket, if it survives the checks of
`find_duplicate_blocks`: at least two distinct files, and all window texts
byte-identical to the first. -/
def clusterOfBucket (ct : String → Nat) (normalized : List (List String))
    (contents : List String) : List Fingerprint → Option DuplicateCluster
  | [] => none
  | f0 :: rest =>
      if (((f0 :: rest).map (fun fp => fp.file_idx)).dedup).length < 2 then none
      else
        let firstText := get_window_text normalized f0.file_idx f0.start_line
        if (f0 :: rest).all
            (fun fp => get_window_text normalized fp.file_idx fp.start_line == firstText) then
          let preview := get_original_window (contents.getD f0.file_idx ("")) f0.start_line
          some
            { occurrences :=
                (f0 :: rest).map (fun fp =>
                  (fp.file_idx, fp.start_line,
                    find_window_end (normalized.getD fp.file_idx []) fp.start_line))
              preview := preview
              tokens_per_instance := ct preview }
        else none

/-- The bucket of a key, in fingerprint generation order (the per-key push
order of the hash map), fed to `clusterOfBucket`. -/
def clusterOfKey (ct : String → Nat) (normalized : List (List String))
    (contents : List String) (fps : List Fingerprint) (h : Nat) :
    Option DuplicateCluster :=
  clusterOfBucket ct normalized contents (fps.filter (fun fp => fp.key == h))

/-- The clusters surviving the per-bucket checks, in bucket enumeration
order. -/
def buildClusters (ct hash : String → Nat) (order : List Nat)
    (normalized : List (List String)) (contents : List String) :
    List DuplicateCluster :=
  order.filterMap (clusterOfKey ct normalized contents (allFingerprints hash normalized))

/-- The comparator of the cluster sort: occurrence count descending, then
estimated savings descending. -/
def cmpCluster (a b : DuplicateCluster) : Ordering :=
  (compare b.occurrences.length a.occurrences.length).then
    (compare (estimate_savings b) (estimate_savings a))

/-- Stable insertion into a sorted list: `x` passes exactly the elements it
compares greater than, as Rust stable `sort_by` orders equal elements. -/
def insertSorted (cmp : α → α → Ordering) (x : α) : List α → List α
  | [] => [x]
  | y :: ys => if cmp x y = Ordering.gt then y :: insertSorted cmp x ys else x :: y :: ys

/-- Stable sort by a comparator (the behaviour of Rust `sort_by` for a total
comparator). -/
def sortByCmp (cmp : α → α → Ordering) : List α → List α
  | [] => []
  | x :: xs => insertSorted cmp x (sortByCmp cmp xs)

/-- Whether `existing` subsumes `c`: every occurrence of `c` starts inside
some occurrence range of `existing` in the same file. -/
def dominatesC (existing c : DuplicateCluster) : Bool :=
  c.occurrences.all (fun o =>
    existing.occurrences.any (fun e =>
      o.1 == e.1 && decide (e.2.1 ≤ o.2.1) && decide (o.2.1 ≤ e.2.2)))

/-- Whether some already-kept cluster subsumes `c`. -/
def dominatedBy (kept : List DuplicateCluster) (c : DuplicateCluster) : Bool :=
  kept.any (fun existing => dominatesC existing c)

/-- The subsumption walk of `find_duplicate_blocks`: keep a cluster unless an
already-kept cluster subsumes it. -/
def keepAux : List DuplicateCluster → List DuplicateCluster → List DuplicateCluster
  | kept, [] => kept
  | kept, c :: rest =>
      if dominatedBy kept c then keepAux kept rest else keepAux (kept ++ [c]) rest

/-- The duplicate-block detector (`find_duplicate_blocks` in deep.rs):
bucket the fingerprints, build the surviving clusters in bucket order, sort
by (occurrence count desc, savings desc), then drop subsumed clusters. -/
def find_duplicate_blocks (ct hash : String → Nat) (order : List Nat)
    (normalized : List (List String)) (contents : List String) :
    List DuplicateCluster :=
  keepAux [] (sortByCmp cmpCluster (buildClusters ct hash order normalized contents))

/-- Specification-side description of the window geometry: `idxNth ls n` is
the index of the `n`-th non-blank line of `ls` (counting from zero), when it
exists. -/
def idxNth : List String → Nat → Option Nat
  | [], _ => none
  | l :: rest, n =>
      if l = "" then (idxNth rest n).map (fun k => k + 1)
      else
        match n with
        | 0 => some 0
        | n + 1 => (idxNth rest n).map (fun k => k + 1)

/-- Invariant of every generated fingerprint: its file index is in range,
its window text is at least 20 bytes, and a third non-blank line exists at
or after its start line. -/
def FpInv (normalized : List (List String)) (fp : Fingerprint) : Prop :=
  fp.file_idx < normalized.length ∧
  20 ≤ utf8Len (get_window_text normalized fp.file_idx fp.start_line) ∧
  ∃ k, idxNth ((normalized.getD fp.file_idx []).drop fp.start_line) 2 = some k

/-- The non-strict order induced by the cluster comparator: `a` may stay
before `b` in the sorted list. -/
def sortKeyLe (a b : DuplicateCluster) : Prop :=
  cmpCluster a b ≠ Ordering.gt

/-- Default cluster used with `List.getD`. -/
def defaultCluster : DuplicateCluster :=
  ⟨[], "", 0⟩

/-- An extracted function (`FnInfo` in deep.rs). -/
structure FnInfo where
  name : String
  line : Nat
  body : String
deriving DecidableEq

/-- Net brace count of a line: opening braces minus closing braces. -/
def braceDelta (l : String) : Int :=
  l.data.foldl
    (fun d ch => if ch = lbrace then d + 1 else if ch = rbrace then d - 1 else d) 0

/-- Loop body of the brace scan of `extract_functions`: from absolute line
`i` with running `depth`, return the first line index at which the depth is
zero, or the default `e` (the first brace line) when it never is. -/
def braceEndAux : List String → Nat → Int → Nat → Nat
  | [], _, _, e => e
  | l :: rest, i, depth, e =>
      let d := depth + braceDelta l
      if d = 0 then i else braceEndAux rest (i + 1) d e

/-- The close line of a function whose first brace line is `bl`. -/
def braceEnd (lines : List String) (bl : Nat) : Nat :=
  braceEndAux (lines.drop bl) bl 0 bl

/-- The first line at or after `i` containing an opening brace. -/
def findBraceIdx (lines : List String) (i : Nat) : Option Nat :=
  ((lines.drop i).findIdx? (fun l => l.data.contains lbrace)).map (fun j => j + i)

/-- The newline-join of lines `i ..= e` (`lines[i..=end].join("\n")`). -/
def sliceJoin (lines : List String) (i e : Nat) : String :=
  joinNL ((lines.drop i).take (e + 1 - i))

/-- Net brace balance of the line range `bl ..= e`. -/
def braceSum (lines : List String) (bl e : Nat) : Int :=
  (((lines.drop bl).take (e + 1 - bl)).map braceDelta).sum

/-- Whether the character list starts with the three characters of the
pattern searched by `trimmed.find("fn ")`. -/
def isFnAt : List Char → Bool
  | 'f' :: 'n' :: ' ' :: _ => true
  | _ => false

/-- Index of the first occurrence of the `fn ` pattern, in characters. -/
def findFnIdx : List Char → Option Nat
  | [] => none
  | c :: cs => if isFnAt (c :: cs) then some 0 else (findFnIdx cs).map (fun j => j + 1)

/-- The header-prefix heuristic of `extract_functions`: empty, or ending in
`pub`, `async` or `unsafe` after trimming, or containing `pub(`. -/
def headerMatch (before : List Char) : Bool :=
  before.isEmpty ||
  ("pub").data.isSuffixOf (rustTrimEnd (String.mk before)).data ||
  containsSeq ("pub(").data before ||
  ("async").data.isSuffixOf (rustTrimEnd (String.mk before)).data ||
  ("unsafe").data.isSuffixOf (rustTrimEnd (String.mk before)).data

/-- The identifier read directly after `fn `: the longest run of characters
that are alphanumeric (per the parameter `isAlnum`, modelling the Unicode
`char::is_alphanumeric` table) or underscores. -/
def fnName (isAlnum : Char → Bool) (afterFn : List Char) : String :=
  String.mk (afterFn.takeWhile (fun c => isAlnum c || c == '_'))

/-- The scanning loop of `extract_functions`.  The Rust `while` advances `i`
by at least one per iteration, so `lines.length + 1` units of fuel always
suffice; the fuel only makes the recursion structural. -/
def extractLoop (isAlnum : Char → Bool) (lines : List String) :
    Nat → Nat → List FnInfo
  | 0, _ => []
  | fuel + 1, i =>
      if i < lines.length then
        let trimmed := rustTrim (lines.getD i (""))
        match findFnIdx trimmed.data with
        | some fnPos =>
            if headerMatch (trimmed.data.take fnPos) then
              let name := fnName isAlnum (trimmed.data.drop (fnPos + 3))
              if name = "" then extractLoop isAlnum lines fuel (i + 1)
              else
                match findBraceIdx lines i with
                | some bl =>
                    let e := braceEnd lines bl
                    ⟨name, i, sliceJoin lines i e⟩ :: extractLoop isAlnum lines fuel (e + 1)
                | none => extractLoop isAlnum lines fuel (i + 1)
            else extractLoop isAlnum lines fuel (i + 1)
        | none => extractLoop isAlnum lines fuel (i + 1)
      else []

/-- The function extractor (`extract_functions` in deep.rs). -/
def extract_functions (isAlnum : Char → Bool) (content : String) : List FnInfo :=
  let lines := rustLines content
  extractLoop isAlnum lines (lines.length + 1) 0

/-- Token-set similarity (`string_similarity` in deep.rs), with the `f64`
quotient modelled as the exact rational. -/
def string_similarity (a b : String) : ℚ :=
  if a = "" ∧ b = "" then 1
  else if a = "" ∨ b = "" then 0
  else
    let words_a := splitWhitespace a
    let words_b := splitWhitespace b
    let matching := (words_a.filter (fun w => words_b.contains w)).length
    let total := max words_a.length words_b.length
    if total = 0 then 0 else (matching : ℚ) / (total : ℚ)

/-- The guard `similarity > 0.75 && similarity < 1.0` of
`find_near_duplicates`, computed in integer arithmetic so that concrete runs
evaluate; `simInRange_iff` below proves it equal to the rational comparison
on `string_similarity`.  (The `f64` quotient of the source is exact at these
two boundaries: 0.75 and 1.0 are dyadic rationals.) -/
def simInRange (a b : String) : Bool :=
  if a = "" ∧ b = "" then false
  else if a = "" ∨ b = "" then false
  else
    let words_a := splitWhitespace a
    let words_b := splitWhitespace b
    let matching := (words_a.filter (fun w => words_b.contains w)).length
    let total := max words_a.length words_b.length
    decide (3 * total < 4 * matching) && decide (matching < total)

/-- Savings estimate of a near-duplicate pair:
`tokens_a.min(tokens_b).saturating_mul(60) / 100` (the saturation cannot
trigger for any representable project). -/
def nearDupSavings (ta tb : Nat) : Nat :=
  min ta tb * 60 / 100

/-- All unordered pairs of list elements, in the nested loop order of the
source: `(i, j)` with `i < j`. -/
def allPairs : List α → List (α × α)
  | [] => []
  | x :: xs => xs.map (fun y => (x, y)) ++ allPairs xs

/-- The near-duplicate pairs contributed by one file, in discovery order. -/
def nearDupesOfFile (ct : String → Nat) (isAlnum : Char → Bool) (fidx : Nat)
    (content : String) : List NearDuplicate :=
  (allPairs (extract_functions isAlnum content)).filterMap (fun p =>
    let norm_a := normalize_line p.1.body
    let norm_b := normalize_line p.2.body
    if utf8Len norm_a < 30 ∨ utf8Len norm_b < 30 then none
    else
      if simInRange norm_a norm_b then
        let savings := nearDupSavings (ct p.1.body) (ct p.2.body)
        if 5 ≤ savings then
          some ⟨fidx, (p.1.name, p.1.line), (p.2.name, p.2.line), savings⟩
        else none
      else none)

/-- Comparator of the near-duplicate sort: savings descending. -/
def cmpNearDup (a b : NearDuplicate) : Ordering :=
  compare b.savings a.savings

/-- The near-duplicate finder (`find_near_duplicates` in deep.rs). -/
def find_near_duplicates (ct : String → Nat) (isAlnum : Char → Bool)
    (files : List FileStats) : List NearDuplicate :=
  sortByCmp cmpNearDup
    ((files.enum.map (fun p => nearDupesOfFile ct isAlnum p.1 p.2.content)).flatten)

/-- The normalized line lists of all files, as precomputed by `run`. -/
def normalizedOf (files : List FileStats) : List (List String) :=
  files.map (fun f => (rustLines f.content).map normalize_line)

/-- The deep analyzer (`run` in deep.rs) with an explicit bucket enumeration
order. -/
def runOrdered (ct hash : String → Nat) (isAlnum : Char → Bool)
    (order : List Nat) (stats : ProjectStats) : DeepResult :=
  let normalized := normalizedOf stats.files
  let clusters :=
    find_duplicate_blocks ct hash order normalized (stats.files.map (fun f => f.content))
  let near_dupes := find_near_duplicates ct isAlnum stats.files
  { clusters := clusters
    near_dupes := near_dupes
    total_savings :=
      (clusters.map estimate_savings).sum + (near_dupes.map (fun n => n.savings)).sum }

/-- The deep analyzer with the canonical bucket enumeration. -/
def run (ct hash : String → Nat) (isAlnum : Char → Bool) (stats : ProjectStats) :
    DeepResult :=
  runOrdered ct hash isAlnum (clusterKeys hash (normalizedOf stats.files)) stats

end deep

/-! Concrete instantiations of the external parameters, used by the
counterexamples and witnesses below. -/

/-- A stand-in for the bucket hash in concrete runs: the code point of the
first character.  It is injective on the window texts of the concrete inputs
below, which is all the demonstrations need (the detector verifies texts
anyway). -/
def demoHash (s : String) : Nat :=
  match s.data with
  | [] => 0
  | c :: _ => c.toNat

/-- A stand-in tokenizer for concrete runs: every string counts 10 tokens. -/
def demoCt : String → Nat := fun _ => 10

/-- ASCII alphanumeric test; agrees with Rust `char::is_alphanumeric` on all
ASCII characters. -/
def asciiAlnum (c : Char) : Bool :=
  decide ('a' ≤ c) && decide (c ≤ 'z') ||
  decide ('A' ≤ c) && decide (c ≤ 'Z') ||
  decide ('0' ≤ c) && decide (c ≤ '9')

/-- ASCII alphanumeric test extended with two Greek letters; agrees with
Rust `char::is_alphanumeric` (Unicode) on every character of the inputs it
is applied to below. -/
def greekAlnum (c : Char) : Bool :=
  asciiAlnum c || c == 'α' || c == 'β'

/-- Two-block file used by the order-dependence demonstration: two distinct
20-byte windows separated by a line too short to bridge them. -/
def dualContent : String :=
  "abcde1\nabcde2\nabcde3\nz\nfghij1\nfghij2\nfghij3"

/-- A project of two identical copies of `dualContent`. -/
def dualStats : ProjectStats :=
  scan_project demoCt [("a.rs", dualContent), ("b.rs", dualContent)]

/-- First file of the mutual-subsumption demonstration: a window of three
identical lines occurring at lines 1 and 2, preceded by a distinct line. -/
def subContent0 : String :=
  "vvvvvvvv\nwwwwwwww\nwwwwwwww\nwwwwwwww\nwwwwwwww"

/-- Second file of the mutual-subsumption demonstration. -/
def subContent1 : String :=
  "vvvvvvvv\nwwwwwwww\nwwwwwwww\nwwwwwwww"

/-- A project on which the larger kept cluster is itself start-contained in
the occurrence ranges of the smaller kept cluster. -/
def subStats : ProjectStats :=
  scan_project demoCt [("a.rs", subContent0), ("b.rs", subContent1)]

/-- A file of three identical Greek lines: its single window text is 20
UTF-8 bytes long but only 11 characters. -/
def greekContent : String :=
  "ααα\nααα\nααα"

/-- A project of two copies of `greekContent`. -/
def greekStats : ProjectStats :=
  scan_project demoCt [("a.rs", greekContent), ("b.rs", greekContent)]

/-- Two one-line functions with Greek payloads: each normalized body is 44
UTF-8 bytes but only 29 characters. -/
def greekFnContent : String :=
  "fn a() \x7b κκκκκκκ ψψψψψψψψ x \x7d\nfn b() \x7b κκκκκκκ ψψψψψψψψ x \x7d"

/-- A one-file project around `greekFnContent`. -/
def greekFnStats : ProjectStats :=
  scan_project demoCt [("a.rs", greekFnContent)]

/-- Two similar ASCII functions (16 words each, 15 shared), used to witness
the near-duplicate path. -/
def ndContent : String :=
  "fn alpha() \x7b let q1 = w1; let e1 = r1; let t1 = y1; \x7d\nfn beta() \x7b let q1 = w1; let e1 = r1; let t1 = y1; \x7d"

/-- A one-file project around `ndContent`. -/
def ndStats : ProjectStats :=
  scan_project demoCt [("a.rs", ndContent)]

/-- Whether every character of a string belongs to the ASCII identifier
grammar `[A-Za-z0-9_]`, and the string is non-empty. -/
def isAsciiIdent (s : String) : Bool :=
  !(s.data.isEmpty) && s.data.all (fun c => asciiAlnum c || c == '_')

/-- Net brace balance of a whole string. -/
def braceBalance (s : String) : Int :=
  deep.braceDelta s

/-- Default file record used with `List.getD`. -/
def defaultFile : FileStats :=
  ⟨"", "", 0, 0, 0⟩

/-- Default near-duplicate record used with `List.getD`. -/
def defaultNearDup : deep.NearDuplicate :=
  ⟨0, ("", 0), ("", 0), 0⟩

/-- A concrete tokenizer satisfying `TokenizerSpec`: zero on the empty
string, one token otherwise. -/
def specCt : String → Nat :=
  fun s => if s = "" then 0 else 1

/-- Normalized lines of the `dualStats` project. -/
def dualNormalized : List (List String) :=
  deep.normalizedOf dualStats.files

/-- File contents of the `dualStats` project. -/
def dualContents : List String :=
  dualStats.files.map (fun f => f.content)

/-- Canonical bucket keys of the `dualStats` project under `demoHash`. -/
def dualKeys : List Nat :=
  deep.clusterKeys demoHash dualNormalized

/-- The deep run on `dualStats` with the canonical bucket order. -/
def dualRun : deep.DeepResult :=
  deep.runOrdered demoCt demoHash asciiAlnum dualKeys dualStats

/-- Normalized lines of the `subStats` project. -/
def subNormalized : List (List String) :=
  deep.normalizedOf subStats.files

/-- File contents of the `subStats` project. -/
def subContentsL : List String :=
  subStats.files.map (fun f => f.content)

/-- Canonical bucket keys of the `subStats` project under `demoHash`. -/
def subKeys : List Nat :=
  deep.clusterKeys demoHash subNormalized

/-- The deep run on `subStats` with the canonical bucket order. -/
def subRun : deep.DeepResult :=
  deep.run demoCt demoHash asciiAlnum subStats

/-- Normalized lines of the `greekStats` project. -/
def greekNormalized : List (List String) :=
  deep.normalizedOf greekStats.files

/-- File contents of the `greekStats` project. -/
def greekContentsL : List String :=
  greekStats.files.map (fun f => f.content)

/-- Canonical bucket keys of the `greekStats` project under `demoHash`. -/
def greekKeys : List Nat :=
  deep.clusterKeys demoHash greekNormalized

/-! Lemmas about the generic list machinery of the embedding. -/

open deep

theorem mem_insertSorted {α : Type} (cmp : α → α → Ordering) (x : α) (l : List α) (a : α) :
    a ∈ insertSorted cmp x l ↔ a = x ∨ a ∈ l := by
  induction l with
  | nil => simp [insertSorted]
  | cons y ys ih =>
      simp only [insertSorted]
      split
      all_goals simp only [List.mem_cons, ih]
      all_goals tauto

theorem mem_sortByCmp {α : Type} (cmp : α → α → Ordering) (l : List α) (a : α) :
    a ∈ sortByCmp cmp l ↔ a ∈ l := by
  induction l with
  | nil => simp [sortByCmp]
  | cons x xs ih =>
      simp only [sortByCmp, mem_insertSorted, ih, List.mem_cons]

theorem keepAux_sublist (kept cs : List DuplicateCluster) :
    (keepAux kept cs).Sublist (kept ++ cs) := by
  induction cs generalizing kept with
  | nil => simp [keepAux]
  | cons c rest ih =>
      simp only [keepAux]
      split
      · exact (ih kept).trans
          (List.Sublist.append_left (List.sublist_cons_self c rest) kept)
      · have h := ih (kept ++ [c])
        simpa using h

theorem mem_keepAux {kept cs : List DuplicateCluster} {c : DuplicateCluster}
    (h : c ∈ keepAux kept cs) : c ∈ kept ∨ c ∈ cs := by
  have := (keepAux_sublist kept cs).subset h
  simpa using this

theorem allPairs_mem {α : Type} : ∀ {l : List α} {p : α × α},
    p ∈ allPairs l → p.1 ∈ l ∧ p.2 ∈ l := by
  intro l
  induction l with
  | nil => intro p hp; simp [allPairs] at hp
  | cons x xs ih =>
      intro p hp
      simp only [allPairs, List.mem_append, List.mem_map] at hp
      rcases hp with ⟨y, hy, rfl⟩ | hp
      · exact ⟨List.mem_cons_self x xs, List.mem_cons_of_mem x hy⟩
      · rcases ih hp with ⟨h1, h2⟩
        exact ⟨List.mem_cons_of_mem x h1, List.mem_cons_of_mem x h2⟩

theorem allPairs_of_pairwise {α : Type} {R : α → α → Prop} :
    ∀ {l : List α}, l.Pairwise R → ∀ p ∈ allPairs l, R p.1 p.2 := by
  intro l
  induction l with
  | nil => intro _ p hp; simp [allPairs] at hp
  | cons x xs ih =>
      intro hpw p hp
      simp only [allPairs, List.mem_append, List.mem_map] at hp
      rcases hp with ⟨y, hy, rfl⟩ | hp
      · exact (List.pairwise_cons.mp hpw).1 y hy
      · exact ih (List.pairwise_cons.mp hpw).2 p hp

/-! Lemmas about windows, fingerprints and window geometry. -/

theorem idxNth_lt_length : ∀ {ls : List String} {n k : Nat},
    idxNth ls n = some k → k < ls.length := by
  intro ls
  induction ls with
  | nil => intro n k h; simp [idxNth] at h
  | cons l rest ih =>
      intro n k h
      simp only [idxNth] at h
      split at h
      · rcases Option.map_eq_some'.mp h with ⟨k', hk', rfl⟩
        have := ih hk'
        simp only [List.length_cons]
        omega
      · match n, h with
        | 0, h =>
            have : k = 0 := by simpa using h.symm
            simp [this]
        | n + 1, h =>
            rcases Option.map_eq_some'.mp h with ⟨k', hk', rfl⟩
            have := ih hk'
            simp only [List.length_cons]
            omega

theorem idxNth_exists : ∀ {ls : List String} {n : Nat},
    n < (ls.filter (fun l => l != "")).length → ∃ k, idxNth ls n = some k := by
  intro ls
  induction ls with
  | nil => intro n h; simp at h
  | cons l rest ih =>
      intro n h
      by_cases hl : l = ""
      · have hf : (l :: rest).filter (fun l => l != "") = rest.filter (fun l => l != "") := by
          simp [hl]
        rw [hf] at h
        rcases ih h with ⟨k, hk⟩
        exact ⟨k + 1, by simp [idxNth, hl, hk]⟩
      · have hf : (l :: rest).filter (fun l => l != "") =
            l :: rest.filter (fun l => l != "") := by
          simp [List.filter_cons, hl]
        rw [hf] at h
        match n with
        | 0 => exact ⟨0, by simp [idxNth, hl]⟩
        | n + 1 =>
            have : n < (rest.filter (fun l => l != "")).length := by
              simp at h; omega
            rcases ih this with ⟨k, hk⟩
            exact ⟨k + 1, by simp [idxNth, hl, hk]⟩

theorem fweAux_eq : ∀ {ls : List String} {i coll e k : Nat}, coll ≤ 2 →
    idxNth ls (2 - coll) = some k → fweAux ls i coll e = i + k := by
  intro ls
  induction ls with
  | nil => intro i coll e k _ h; simp [idxNth] at h
  | cons l rest ih =>
      intro i coll e k hcoll h
      by_cases hl : l = ""
      · simp only [idxNth, if_pos hl] at h
        rcases Option.map_eq_some'.mp h with ⟨k', hk', rfl⟩
        have hrec := @ih (i + 1) coll i k' hcoll hk'
        simp only [fweAux, if_pos hl]
        have hlt : ¬ 3 ≤ coll := by omega
        rw [if_neg hlt, hrec]
        omega
      · simp only [idxNth, if_neg hl] at h
        by_cases h2 : coll = 2
        · subst h2
          simp only [Nat.sub_self] at h
          have hk : k = 0 := by simpa using h.symm
          subst hk
          simp [fweAux, hl]
        · have hc : coll ≤ 1 := by omega
          have hsub : 2 - coll = (1 - coll) + 1 := by omega
          rw [hsub] at h
          rcases Option.map_eq_some'.mp h with ⟨k', hk', rfl⟩
          have hsub2 : 1 - coll = 2 - (coll + 1) := by omega
          rw [hsub2] at hk'
          have hrec := @ih (i + 1) (coll + 1) i k' (by omega) hk'
          simp only [fweAux, if_neg hl]
          have hlt : ¬ 3 ≤ coll + 1 := by omega
          rw [if_neg hlt, hrec]
          omega

theorem find_window_end_eq {lines : List String} {s k : Nat}
    (h : idxNth (lines.drop s) 2 = some k) : find_window_end lines s = s + k :=
  fweAux_eq (by omega) h

theorem windowsFrom_mem : ∀ {ls : List String} {s : Nat} {w : Win}, w ∈ windowsFrom s ls →
    ∃ k, w.start = s + k ∧ k < ls.length ∧
      ((ls.drop k).filter (fun x => x != "")).take 3 = [w.a, w.b, w.c] := by
  intro ls
  induction ls with
  | nil => intro s w h; simp [windowsFrom] at h
  | cons l rest ih =>
      intro s w h
      have tailCase : w ∈ windowsFrom (s + 1) rest →
          ∃ k, w.start = s + k ∧ k < (l :: rest).length ∧
            (((l :: rest).drop k).filter (fun x => x != "")).take 3 = [w.a, w.b, w.c] := by
        intro ht
        rcases ih ht with ⟨k, h1, h2, h3⟩
        refine ⟨k + 1, by omega, by simp; omega, ?_⟩
        simpa using h3
      simp only [windowsFrom] at h
      by_cases hl : l = ""
      · rw [if_pos hl] at h
        exact tailCase h
      · rw [if_neg hl] at h
        rcases htake : (rest.filter (fun x => x != "")).take 2 with _ | ⟨b0, rest2⟩
        · rw [htake] at h
          exact tailCase h
        · rcases rest2 with _ | ⟨c0, rest3⟩
          · rw [htake] at h
            exact tailCase h
          · have hnil : rest3 = [] := by
              have h2 : ((rest.filter (fun x => x != "")).take 2).length ≤ 2 :=
                List.length_take_le 2 _
              rw [htake] at h2
              simp only [List.length_cons] at h2
              exact List.eq_nil_of_length_eq_zero (by omega)
            subst hnil
            rw [htake] at h
            simp only [List.mem_cons] at h
            rcases h with rfl | h
            · refine ⟨0, by simp, by simp, ?_⟩
              have hbne : (l != "") = true := by simpa using hl
              simp [List.filter_cons, hbne, htake]
            · exact tailCase h

theorem get_window_text_eq {normalized : List (List String)} {fidx : Nat} {ls : List String}
    (hls : normalized.getD fidx [] = ls) {start : Nat} {a b c : String}
    (h3 : ((ls.drop start).filter (fun x => x != "")).take 3 = [a, b, c]) :
    get_window_text normalized fidx start = joinNL [a, b, c] := by
  unfold get_window_text
  rw [hls, h3]

theorem take3_third_exists {ls : List String} {s : Nat} {a b c : String}
    (h3 : ((ls.drop s).filter (fun x => x != "")).take 3 = [a, b, c]) :
    ∃ k, idxNth (ls.drop s) 2 = some k := by
  apply idxNth_exists
  have := congrArg List.length h3
  simp only [List.length_take, List.length_cons, List.length_nil] at this
  omega

theorem allFingerprints_inv {hash : String → Nat} {normalized : List (List String)} :
    ∀ fp ∈ allFingerprints hash normalized, FpInv normalized fp := by
  intro fp hfp
  unfold allFingerprints at hfp
  rw [List.mem_flatten] at hfp
  rcases hfp with ⟨lfp, hlfp, hfpin⟩
  rw [List.mem_map] at hlfp
  rcases hlfp with ⟨⟨i, ls⟩, hmem, rfl⟩
  have hi := List.mem_enum hmem
  have hget : normalized.getD i [] = ls := by
    rcases hi with ⟨hlt, hval⟩
    rw [List.getD_eq_getElem _ _ hlt, hval]
  unfold fileFingerprints at hfpin
  rw [List.mem_filterMap] at hfpin
  rcases hfpin with ⟨w, hw, hsome⟩
  rcases windowsFrom_mem hw with ⟨k, hstart, _, htake3⟩
  have hstart0 : w.start = k := by omega
  dsimp only at hsome htake3 hget hi ⊢
  split at hsome
  · exact absurd hsome (by simp)
  · rename_i hlen
    have hfp_eq : fp = ⟨hash (joinNL [w.a, w.b, w.c]), i, w.start⟩ := by
      exact (Option.some.injEq _ _ ▸ hsome).symm
    subst hfp_eq
    refine ⟨hi.1, ?_, ?_⟩
    · rw [hstart0, get_window_text_eq hget htake3]
      omega
    · rw [hget, hstart0]
      exact take3_third_exists htake3

theorem clusterOfBucket_some {ct : String → Nat} {normalized : List (List String)}
    {contents : List String} {b : List Fingerprint} {c : DuplicateCluster}
    (h : clusterOfBucket ct normalized contents b = some c) :
    b ≠ [] ∧
    2 ≤ ((b.map (fun fp => fp.file_idx)).dedup).length ∧
    (∀ fp ∈ b, ∀ fp1 ∈ b, get_window_text normalized fp.file_idx fp.start_line =
      get_window_text normalized fp1.file_idx fp1.start_line) ∧
    c.occurrences = b.map (fun fp =>
      (fp.file_idx, fp.start_line,
        find_window_end (normalized.getD fp.file_idx []) fp.start_line)) := by
  match b with
  | [] => simp [clusterOfBucket] at h
  | f0 :: rest =>
      simp only [clusterOfBucket] at h
      split at h
      · exact absurd h (by simp)
      · rename_i hfiles
        split at h
        · rename_i hall
          have hc := (Option.some.injEq _ _ ▸ h).symm
          subst hc
          refine ⟨by simp, by omega, ?_, rfl⟩
          have hall1 : ∀ fp ∈ f0 :: rest,
              get_window_text normalized fp.file_idx fp.start_line =
              get_window_text normalized f0.file_idx f0.start_line := by
            intro fp hfp
            have := List.all_eq_true.mp hall fp hfp
            exact eq_of_beq this
          intro fp hfp fp1 hfp1
          rw [hall1 fp hfp, hall1 fp1 hfp1]
        · exact absurd h (by simp)

theorem mem_find_duplicate_blocks {ct hash : String → Nat} {order : List Nat}
    {normalized : List (List String)} {contents : List String} {c : DuplicateCluster}
    (h : c ∈ find_duplicate_blocks ct hash order normalized contents) :
    ∃ hkey, clusterOfBucket ct normalized contents
      ((allFingerprints hash normalized).filter (fun fp => fp.key == hkey)) = some c := by
  unfold find_duplicate_blocks at h
  rcases mem_keepAux h with h1 | h1
  · simp at h1
  · rw [mem_sortByCmp] at h1
    unfold buildClusters at h1
    rw [List.mem_filterMap] at h1
    rcases h1 with ⟨hkey, _, hsome⟩
    exact ⟨hkey, hsome⟩

theorem cluster_occ_inv {ct hash : String → Nat} {order : List Nat}
    {normalized : List (List String)} {contents : List String} {c : DuplicateCluster}
    (h : c ∈ find_duplicate_blocks ct hash order normalized contents) :
    2 ≤ c.occurrences.length ∧
    2 ≤ ((c.occurrences.map (fun o => o.1)).dedup).length ∧
    (∀ o ∈ c.occurrences, ∀ o1 ∈ c.occurrences,
      get_window_text normalized o.1 o.2.1 = get_window_text normalized o1.1 o1.2.1) ∧
    ∀ o ∈ c.occurrences,
      o.1 < normalized.length ∧
      20 ≤ utf8Len (get_window_text normalized o.1 o.2.1) ∧
      ∃ k, idxNth ((normalized.getD o.1 []).drop o.2.1) 2 = some k ∧
        o.2.2 = o.2.1 + k ∧ k < ((normalized.getD o.1 []).drop o.2.1).length := by
  rcases mem_find_duplicate_blocks h with ⟨hkey, hsome⟩
  rcases clusterOfBucket_some hsome with ⟨hne, hdedup, htexts, hocc⟩
  have hsub : ∀ fp ∈ (allFingerprints hash normalized).filter (fun fp => fp.key == hkey),
      FpInv normalized fp := by
    intro fp hfp
    exact allFingerprints_inv fp (List.mem_filter.mp hfp).1
  have hmapfst : c.occurrences.map (fun o => o.1) =
      ((allFingerprints hash normalized).filter (fun fp => fp.key == hkey)).map
        (fun fp => fp.file_idx) := by
    rw [hocc, List.map_map]
    rfl
  have hoccmem : ∀ o ∈ c.occurrences,
      ∃ fp ∈ (allFingerprints hash normalized).filter (fun fp => fp.key == hkey),
        o = (fp.file_idx, fp.start_line,
          find_window_end (normalized.getD fp.file_idx []) fp.start_line) := by
    intro o ho
    rw [hocc, List.mem_map] at ho
    rcases ho with ⟨fp, hfp, rfl⟩
    exact ⟨fp, hfp, rfl⟩
  refine ⟨?_, ?_, ?_, ?_⟩
  · have h1 : ((c.occurrences.map (fun o => o.1)).dedup).length ≤ c.occurrences.length := by
      calc ((c.occurrences.map (fun o => o.1)).dedup).length
          ≤ (c.occurrences.map (fun o => o.1)).length :=
            (List.dedup_sublist _).length_le
        _ = c.occurrences.length := List.length_map _ _
    rw [hmapfst] at h1
    omega
  · rw [hmapfst]
    exact hdedup
  · intro o ho o1 ho1
    rcases hoccmem o ho with ⟨fp, hfp, rfl⟩
    rcases hoccmem o1 ho1 with ⟨fp1, hfp1, rfl⟩
    exact htexts fp hfp fp1 hfp1
  · intro o ho
    rcases hoccmem o ho with ⟨fp, hfp, rfl⟩
    rcases hsub fp hfp with ⟨hidx, hlen, k, hk⟩
    refine ⟨hidx, hlen, k, hk, ?_, idxNth_lt_length hk⟩
    exact find_window_end_eq hk

/-! Lemmas about the function extractor. -/

theorem braceEndAux_ge {b : Nat} : ∀ (ls : List String) (i : Nat) (d : Int) (e : Nat),
    b ≤ i → b ≤ e → b ≤ braceEndAux ls i d e := by
  intro ls
  induction ls with
  | nil => intro i d e _ he; simpa [braceEndAux] using he
  | cons l rest ih =>
      intro i d e hi he
      simp only [braceEndAux]
      split
      · exact hi
      · exact ih (i + 1) _ e (by omega) he

theorem braceEndAux_spec : ∀ (ls : List String) (i : Nat) (d : Int) (e : Nat),
    braceEndAux ls i d e = e ∨
    (i ≤ braceEndAux ls i d e ∧
      d + ((ls.take (braceEndAux ls i d e + 1 - i)).map braceDelta).sum = 0) := by
  intro ls
  induction ls with
  | nil => intro i d e; left; rfl
  | cons l rest ih =>
      intro i d e
      simp only [braceEndAux]
      by_cases hd : d + braceDelta l = 0
      · rw [if_pos hd]
        right
        refine ⟨le_refl i, ?_⟩
        have h1 : i + 1 - i = 1 := by omega
        rw [h1]
        simpa using hd
      · rw [if_neg hd]
        rcases ih (i + 1) (d + braceDelta l) e with h | ⟨hge, hsum⟩
        · left; exact h
        · right
          refine ⟨by omega, ?_⟩
          have h1 : braceEndAux rest (i + 1) (d + braceDelta l) e + 1 - i =
              (braceEndAux rest (i + 1) (d + braceDelta l) e + 1 - (i + 1)) + 1 := by
            omega
          rw [h1]
          simp only [List.take_succ_cons, List.map_cons, List.sum_cons]
          omega

theorem extractLoop_inv (isAlnum : Char → Bool) (lines : List String) :
    ∀ (fuel i : Nat), ∀ fi ∈ extractLoop isAlnum lines fuel i,
      i ≤ fi.line ∧
      (fi.name ≠ "" ∧ fi.name.data.all (fun c => isAlnum c || c == '_') = true) ∧
      ∃ bl, findBraceIdx lines fi.line = some bl ∧ fi.line ≤ bl ∧
        bl ≤ braceEnd lines bl ∧
        fi.body = sliceJoin lines fi.line (braceEnd lines bl) ∧
        (braceSum lines bl (braceEnd lines bl) = 0 ∨ braceEnd lines bl = bl) := by
  intro fuel
  induction fuel with
  | zero => intro i fi h; simp [extractLoop] at h
  | succ fuel ih =>
      intro i fi h
      simp only [extractLoop] at h
      by_cases hlt : i < lines.length
      case neg => rw [if_neg hlt] at h; simp at h
      rw [if_pos hlt] at h
      rcases hfn : findFnIdx (rustTrim (lines.getD i (""))).data with _ | fnPos
      · simp only [hfn] at h
        have hrec := ih (i + 1) fi h
        exact ⟨by omega, hrec.2⟩
      · simp only [hfn] at h
        by_cases hmatch : headerMatch ((rustTrim (lines.getD i (""))).data.take fnPos) = true
        case neg =>
          rw [if_neg hmatch] at h
          have hrec := ih (i + 1) fi h
          exact ⟨by omega, hrec.2⟩
        rw [if_pos hmatch] at h
        by_cases hne : fnName isAlnum ((rustTrim (lines.getD i (""))).data.drop (fnPos + 3)) = ""
        · rw [if_pos hne] at h
          have hrec := ih (i + 1) fi h
          exact ⟨by omega, hrec.2⟩
        · rw [if_neg hne] at h
          rcases hbr : findBraceIdx lines i with _ | bl
          · simp only [hbr] at h
            have hrec := ih (i + 1) fi h
            exact ⟨by omega, hrec.2⟩
          · simp only [hbr] at h
            have hble : i ≤ bl := by
              unfold findBraceIdx at hbr
              rcases Option.map_eq_some'.mp hbr with ⟨j, _, hj⟩
              omega
            have hbe : bl ≤ braceEnd lines bl := by
              unfold braceEnd
              exact braceEndAux_ge _ _ _ _ (le_refl bl) (le_refl bl)
            rcases List.mem_cons.mp h with rfl | htail
            · refine ⟨le_refl i, ⟨hne, ?_⟩, bl, hbr, hble, hbe, rfl, ?_⟩
              · apply List.all_eq_true.mpr
                intro c hc
                have hc1 : c ∈ ((rustTrim (lines.getD i (""))).data.drop (fnPos + 3)).takeWhile
                    (fun c => isAlnum c || c == '_') := hc
                have hp := List.mem_takeWhile_imp hc1
                simpa using hp
              · rcases braceEndAux_spec (lines.drop bl) bl 0 bl with hz | ⟨_, hsum⟩
                · right; exact hz
                · left
                  unfold braceSum braceEnd
                  omega
            · have hrec := ih (braceEnd lines bl + 1) fi htail
              exact ⟨by omega, hrec.2⟩

theorem extractLoop_lines_lt (isAlnum : Char → Bool) (lines : List String) :
    ∀ (fuel i : Nat),
      (extractLoop isAlnum lines fuel i).Pairwise (fun a b => a.line < b.line) := by
  intro fuel
  induction fuel with
  | zero => intro i; simp [extractLoop]
  | succ fuel ih =>
      intro i
      simp only [extractLoop]
      by_cases hlt : i < lines.length
      case neg => rw [if_neg hlt]; simp
      rw [if_pos hlt]
      rcases hfn : findFnIdx (rustTrim (lines.getD i (""))).data with _ | fnPos
      · simp only [hfn]
        exact ih (i + 1)
      · simp only [hfn]
        by_cases hmatch : headerMatch ((rustTrim (lines.getD i (""))).data.take fnPos) = true
        case neg => rw [if_neg hmatch]; exact ih (i + 1)
        rw [if_pos hmatch]
        by_cases hne : fnName isAlnum ((rustTrim (lines.getD i (""))).data.drop (fnPos + 3)) = ""
        · rw [if_pos hne]; exact ih (i + 1)
        · rw [if_neg hne]
          rcases hbr : findBraceIdx lines i with _ | bl
          · simp only [hbr]
            exact ih (i + 1)
          · simp only [hbr]
            refine List.pairwise_cons.mpr ⟨?_, ih (braceEnd lines bl + 1)⟩
            intro z hz
            have hble : i ≤ bl := by
              unfold findBraceIdx at hbr
              rcases Option.map_eq_some'.mp hbr with ⟨j, _, hj⟩
              omega
            have hbe : bl ≤ braceEnd lines bl := by
              unfold braceEnd
              exact braceEndAux_ge _ _ _ _ (le_refl bl) (le_refl bl)
            have hz1 := (extractLoop_inv isAlnum lines fuel (braceEnd lines bl + 1) z hz).1
            show i < z.line
            omega

theorem extract_functions_lines_lt (isAlnum : Char → Bool) (content : String) :
    (extract_functions isAlnum content).Pairwise (fun a b => a.line < b.line) :=
  extractLoop_lines_lt isAlnum (rustLines content) ((rustLines content).length + 1) 0

/-! Lemmas about the similarity guard and the near-duplicate finder. -/

theorem simInRange_iff (a b : String) :
    simInRange a b = true ↔
      (3 / 4 < string_similarity a b ∧ string_similarity a b < 1) := by
  unfold simInRange string_similarity
  by_cases h1 : a = "" ∧ b = ""
  · rw [if_pos h1, if_pos h1]
    constructor
    · intro hh; exact absurd hh (by simp)
    · intro hh; exact absurd hh.2 (by norm_num)
  · rw [if_neg h1, if_neg h1]
    by_cases h2 : a = "" ∨ b = ""
    · rw [if_pos h2, if_pos h2]
      constructor
      · intro hh; exact absurd hh (by simp)
      · intro hh; exact absurd hh.1 (by norm_num)
    · rw [if_neg h2, if_neg h2]
      by_cases h3 : max (splitWhitespace a).length (splitWhitespace b).length = 0
      · rw [if_pos h3]
        constructor
        · intro hh
          simp only [Bool.and_eq_true, decide_eq_true_iff] at hh
          omega
        · intro hh; exact absurd hh.1 (by norm_num)
      · rw [if_neg h3]
        have htp : 0 < ((max (splitWhitespace a).length (splitWhitespace b).length : Nat) : ℚ) := by
          have : 0 < max (splitWhitespace a).length (splitWhitespace b).length :=
            Nat.pos_of_ne_zero h3
          exact_mod_cast this
        rw [Bool.and_eq_true, decide_eq_true_iff, decide_eq_true_iff,
          div_lt_div_iff₀ (by norm_num) htp, div_lt_one htp]
        constructor
        · rintro ⟨x, y⟩
          refine ⟨?_, by exact_mod_cast y⟩
          have hx : 3 * max (splitWhitespace a).length (splitWhitespace b).length <
              ((splitWhitespace a).filter
                (fun w => (splitWhitespace b).contains w)).length * 4 := by
            omega
          exact_mod_cast hx
        · rintro ⟨x, y⟩
          have hx : 3 * max (splitWhitespace a).length (splitWhitespace b).length <
              ((splitWhitespace a).filter
                (fun w => (splitWhitespace b).contains w)).length * 4 := by
            exact_mod_cast x
          refine ⟨by omega, by exact_mod_cast y⟩

theorem mem_find_near_duplicates {ct : String → Nat} {isAlnum : Char → Bool}
    {files : List FileStats} {nd : NearDuplicate}
    (h : nd ∈ find_near_duplicates ct isAlnum files) :
    ∃ fidx file, (fidx, file) ∈ files.enum ∧ ∃ a b : FnInfo,
      (a, b) ∈ allPairs (extract_functions isAlnum file.content) ∧
      30 ≤ utf8Len (normalize_line a.body) ∧ 30 ≤ utf8Len (normalize_line b.body) ∧
      simInRange (normalize_line a.body) (normalize_line b.body) = true ∧
      5 ≤ nearDupSavings (ct a.body) (ct b.body) ∧
      nd = ⟨fidx, (a.name, a.line), (b.name, b.line),
        nearDupSavings (ct a.body) (ct b.body)⟩ := by
  unfold find_near_duplicates at h
  rw [mem_sortByCmp, List.mem_flatten] at h
  rcases h with ⟨lnd, hl, hmem⟩
  rw [List.mem_map] at hl
  rcases hl with ⟨⟨fidx, file⟩, hen, rfl⟩
  unfold nearDupesOfFile at hmem
  rw [List.mem_filterMap] at hmem
  rcases hmem with ⟨⟨a, b⟩, hab, hsome⟩
  refine ⟨fidx, file, hen, a, b, hab, ?_⟩
  dsimp only at hsome
  split at hsome
  · exact absurd hsome (by simp)
  · rename_i h30
    split at hsome
    · rename_i hsim
      split at hsome
      · rename_i hsav
        have hnd : nd = ⟨fidx, (a.name, a.line), (b.name, b.line),
            nearDupSavings (ct a.body) (ct b.body)⟩ :=
          ((Option.some.injEq _ _).mp hsome).symm
        exact ⟨by omega, by omega, hsim, hsav, hnd⟩
      · exact absurd hsome (by simp)
    · exact absurd hsome (by simp)

/-! Lemmas about the cluster sort and the subsumption walk. -/

theorem cmpCluster_gt_iff (a b : DuplicateCluster) :
    cmpCluster a b = Ordering.gt ↔
      (a.occurrences.length < b.occurrences.length ∨
       (a.occurrences.length = b.occurrences.length ∧
        estimate_savings a < estimate_savings b)) := by
  unfold cmpCluster
  rcases Nat.lt_trichotomy a.occurrences.length b.occurrences.length with h | h | h
  · rw [Nat.compare_eq_gt.mpr h]
    simp only [Ordering.then]
    constructor
    · intro _; exact Or.inl h
    · intro _; trivial
  · rw [Nat.compare_eq_eq.mpr h.symm]
    simp only [Ordering.then]
    rw [Nat.compare_eq_gt]
    constructor
    · intro hs; exact Or.inr ⟨h, hs⟩
    · intro hd
      rcases hd with hd | hd
      · omega
      · exact hd.2
  · rw [Nat.compare_eq_lt.mpr h]
    simp only [Ordering.then]
    constructor
    · intro hh; exact absurd hh (by simp)
    · intro hd; omega

theorem sortKeyLe_iff (a b : DuplicateCluster) :
    sortKeyLe a b ↔
      (b.occurrences.length < a.occurrences.length ∨
       (a.occurrences.length = b.occurrences.length ∧
        estimate_savings b ≤ estimate_savings a)) := by
  unfold sortKeyLe
  simp only [Ne, cmpCluster_gt_iff]
  omega

theorem sortKeyLe_of_gt {a b : DuplicateCluster} (h : cmpCluster a b = Ordering.gt) :
    sortKeyLe b a := by
  rw [sortKeyLe_iff]
  rw [cmpCluster_gt_iff] at h
  omega

theorem sortKeyLe_of_not_gt {a b : DuplicateCluster} (h : cmpCluster a b ≠ Ordering.gt) :
    sortKeyLe a b :=
  h

theorem sortKeyLe_trans {a b c : DuplicateCluster}
    (h1 : sortKeyLe a b) (h2 : sortKeyLe b c) : sortKeyLe a c := by
  rw [sortKeyLe_iff] at h1 h2 ⊢
  omega

theorem insertSorted_pairwise_le (x : DuplicateCluster) :
    ∀ {l : List DuplicateCluster}, l.Pairwise sortKeyLe →
      (insertSorted cmpCluster x l).Pairwise sortKeyLe := by
  intro l
  induction l with
  | nil => intro _; simp [insertSorted]
  | cons y ys ih =>
      intro hp
      rcases List.pairwise_cons.mp hp with ⟨hy, hys⟩
      simp only [insertSorted]
      split
      · rename_i hgt
        refine List.pairwise_cons.mpr ⟨?_, ih hys⟩
        intro z hz
        rw [mem_insertSorted] at hz
        rcases hz with rfl | hz
        · exact sortKeyLe_of_gt hgt
        · exact hy z hz
      · rename_i hngt
        refine List.pairwise_cons.mpr ⟨?_, hp⟩
        intro z hz
        rcases List.mem_cons.mp hz with rfl | hz
        · exact sortKeyLe_of_not_gt hngt
        · exact sortKeyLe_trans (sortKeyLe_of_not_gt hngt) (hy z hz)

theorem sortByCmp_pairwise_le :
    ∀ l : List DuplicateCluster, (sortByCmp cmpCluster l).Pairwise sortKeyLe := by
  intro l
  induction l with
  | nil => simp [sortByCmp]
  | cons x xs ih => exact insertSorted_pairwise_le x ih

theorem keepAux_not_dominated (d : DuplicateCluster) :
    ∀ (cs kept : List DuplicateCluster),
    (∀ j, j < kept.length → dominatedBy (kept.take j) (kept.getD j d) = false) →
    ∀ j, j < (keepAux kept cs).length →
      dominatedBy ((keepAux kept cs).take j) ((keepAux kept cs).getD j d) = false := by
  intro cs
  induction cs with
  | nil =>
      intro kept hinv j hj
      simp only [keepAux] at hj ⊢
      exact hinv j hj
  | cons c rest ih =>
      intro kept hinv j hj
      simp only [keepAux] at hj ⊢
      by_cases hdom : dominatedBy kept c = true
      · rw [if_pos hdom] at hj ⊢
        exact ih kept hinv j hj
      · rw [if_neg hdom] at hj ⊢
        refine ih (kept ++ [c]) ?_ j hj
        intro j1 hj1
        rcases Nat.lt_or_ge j1 kept.length with hlt | hge
        · rw [List.take_append_of_le_length (le_of_lt hlt),
            List.getD_append _ _ _ _ hlt]
          exact hinv j1 hlt
        · have hj2 : j1 = kept.length := by
            simp only [List.length_append, List.length_cons, List.length_nil] at hj1
            omega
          subst hj2
          rw [List.take_left, List.getD_append_right _ _ _ _ (le_refl _)]
          simp only [Nat.sub_self, List.getD_cons_zero]
          simpa using hdom

/-! Lemmas about the line classifier and the project scanner. -/

theorem classifyLines_sum : ∀ (ls : List String) (ib : Bool),
    (classifyLines ls ib).1 + (classifyLines ls ib).2.1 + (classifyLines ls ib).2.2 =
      ls.length := by
  intro ls
  induction ls with
  | nil => intro ib; rfl
  | cons l rest ih =>
      intro ib
      have i1 := ih ib
      have i2 := ih (!containsSeq ("*/").data (rustTrim l).data)
      have i3 := ih (!containsSeq (['*', '/']) (rustTrim l).data)
      simp only [classifyLines]
      split_ifs <;> simp only [List.length_cons] <;> omega

theorem scan_foldl_files (ct : String → Nat) :
    ∀ (inputs : List (String × String)) (st : ProjectStats),
    (inputs.foldl (scanStep ct) st).files =
      st.files ++ inputs.map (fun pc => mkFileStats ct pc.1 pc.2) := by
  intro inputs
  induction inputs with
  | nil => intro st; simp
  | cons pc rest ih =>
      intro st
      rw [List.foldl_cons, ih]
      simp [scanStep]

theorem scan_step_inv (ct : String → Nat) (st : ProjectStats) (pc : String × String)
    (h1 : st.total_lines = (st.files.map (fun f => f.lines)).sum)
    (h2 : st.total_tokens = (st.files.map (fun f => f.tokens)).sum)
    (h3 : st.code_lines + st.comment_lines + st.blank_lines = st.total_lines) :
    (scanStep ct st pc).total_lines =
      ((scanStep ct st pc).files.map (fun f => f.lines)).sum ∧
    (scanStep ct st pc).total_tokens =
      ((scanStep ct st pc).files.map (fun f => f.tokens)).sum ∧
    (scanStep ct st pc).code_lines + (scanStep ct st pc).comment_lines +
      (scanStep ct st pc).blank_lines = (scanStep ct st pc).total_lines := by
  have hsum := classifyLines_sum (rustLines pc.2) false
  unfold scanStep mkFileStats count_line_types
  refine ⟨?_, ?_, ?_⟩
  · simp only [List.map_append, List.sum_append, List.map_cons, List.sum_cons,
      List.map_nil, List.sum_nil]
    omega
  · simp only [List.map_append, List.sum_append, List.map_cons, List.sum_cons,
      List.map_nil, List.sum_nil]
    omega
  · simp only []
    unfold count_line_types at hsum
    omega

theorem scan_foldl_inv (ct : String → Nat) :
    ∀ (inputs : List (String × String)) (st : ProjectStats),
    st.total_lines = (st.files.map (fun f => f.lines)).sum →
    st.total_tokens = (st.files.map (fun f => f.tokens)).sum →
    st.code_lines + st.comment_lines + st.blank_lines = st.total_lines →
    (inputs.foldl (scanStep ct) st).total_lines =
      ((inputs.foldl (scanStep ct) st).files.map (fun f => f.lines)).sum ∧
    (inputs.foldl (scanStep ct) st).total_tokens =
      ((inputs.foldl (scanStep ct) st).files.map (fun f => f.tokens)).sum ∧
    (inputs.foldl (scanStep ct) st).code_lines +
      (inputs.foldl (scanStep ct) st).comment_lines +
      (inputs.foldl (scanStep ct) st).blank_lines =
      (inputs.foldl (scanStep ct) st).total_lines := by
  intro inputs
  induction inputs with
  | nil => intro st h1 h2 h3; exact ⟨h1, h2, h3⟩
  | cons pc rest ih =>
      intro st h1 h2 h3
      rw [List.foldl_cons]
      rcases scan_step_inv ct st pc h1 h2 h3 with ⟨g1, g2, g3⟩
      exact ih (scanStep ct st pc) g1 g2 g3

/-! Claim theorems. -/

/-- C1 counterexample: at ratio 5.0 the code returns the triple
`("A%2B", "brightgreen", "A+")` — URL-encoded letter first, plain letter
last — not the `(letter, colour, url_letter)` triple
`("A+", "brightgreen", "A%2B")` stated by the claim. -/
theorem c1_grade_counterexample :
    efficiency_grade 5 = ("A%2B", "brightgreen", "A+") ∧
    efficiency_grade 5 ≠ ("A+", "brightgreen", "A%2B") := by
  have h5 : ((5 : ℚ) ≤ 5) := le_refl 5
  constructor
  · unfold efficiency_grade
    rw [if_pos h5]
  · unfold efficiency_grade
    rw [if_pos h5]
    intro h
    exact absurd (congrArg (fun t => t.1) h) (by decide)

/-- C1 (amended): the grade triple is ordered (url_letter, colour, letter):
r ≤ 5.0 gives ("A%2B", "brightgreen", "A+"); 5.0 < r ≤ 7.0 gives
("A", "green", "A"); 7.0 < r ≤ 9.0 gives ("B", "blue", "B"); 9.0 < r ≤ 12.0
gives ("C", "orange", "C"); r > 12.0 gives ("D", "red", "D"); in particular
the grade at exactly 5.0 carries the letter A+ (third component). -/
theorem c1_grade_bands : ∀ r : ℚ,
    (r ≤ 5 → efficiency_grade r = ("A%2B", "brightgreen", "A+")) ∧
    (5 < r → r ≤ 7 → efficiency_grade r = ("A", "green", "A")) ∧
    (7 < r → r ≤ 9 → efficiency_grade r = ("B", "blue", "B")) ∧
    (9 < r → r ≤ 12 → efficiency_grade r = ("C", "orange", "C")) ∧
    (12 < r → efficiency_grade r = ("D", "red", "D")) := by
  intro r
  unfold efficiency_grade
  refine ⟨fun h1 => by rw [if_pos h1], fun h1 h2 => ?_, fun h1 h2 => ?_,
    fun h1 h2 => ?_, fun h1 => ?_⟩
  · rw [if_neg (by linarith), if_pos h2]
  · rw [if_neg (by linarith), if_neg (by linarith), if_pos h2]
  · rw [if_neg (by linarith), if_neg (by linarith), if_neg (by linarith), if_pos h2]
  · rw [if_neg (by linarith), if_neg (by linarith), if_neg (by linarith),
      if_neg (by linarith)]

/-- C1 witness: the amended band theorem applied at the boundary 5.0 and at
13.0. -/
theorem c1_grade_witness :
    efficiency_grade 5 = ("A%2B", "brightgreen", "A+") ∧
    efficiency_grade 13 = ("D", "red", "D") :=
  ⟨(c1_grade_bands 5).1 (by norm_num), (c1_grade_bands 13).2.2.2.2 (by norm_num)⟩

/-- C2 (code bug): the deep analyzer's output depends on the order in which
the hash map yields its buckets.  On a project with two clusters tied on
both sort keys (occurrence count 2 each, equal savings), enumerating the
same buckets in the canonical order and in its reverse — a permutation of
it, as a differently seeded `HashMap` may legitimately produce — yields
different `DeepResult`s, so two runs on identical input need not agree. -/
theorem c2_order_dependence :
    deep.runOrdered demoCt demoHash asciiAlnum dualKeys dualStats ≠
      deep.runOrdered demoCt demoHash asciiAlnum dualKeys.reverse dualStats ∧
    dualKeys.reverse.Perm dualKeys :=
  ⟨by decide, List.reverse_perm dualKeys⟩

/-- C3 counterexample: after subsumption the kept set can still contain a
cluster whose occurrence set is start-contained in the occurrences of
another kept cluster, when the dominating cluster is kept later.  On
`subStats` the kept list is [X with occurrences (0,1,3), (0,2,4), (1,1,3);
Y with occurrences (0,0,2), (1,0,2)], and every occurrence of X starts
inside an occurrence range of Y — the later-kept Y dominates the
earlier-kept X. -/
theorem c3_subsumption_counterexample :
    subRun.clusters.map (fun c => c.occurrences) =
      [[(0, 1, 3), (0, 2, 4), (1, 1, 3)], [(0, 0, 2), (1, 0, 2)]] ∧
    dominatesC (subRun.clusters.getD 1 defaultCluster)
      (subRun.clusters.getD 0 defaultCluster) = true :=
  ⟨by decide, by decide⟩

/-- C3 (amended): the subsumption dedupe is the stated two-stage filter, and
its guarantee is one-sided: the kept list is sorted by (occurrence count
desc, estimated savings desc), and no kept cluster is dominated by the
clusters kept *before* it; a kept cluster may still be dominated by a
cluster kept after it. -/
theorem c3_subsumption_invariant : ∀ (ct hash : String → Nat) (order : List Nat)
    (normalized : List (List String)) (contents : List String),
    (find_duplicate_blocks ct hash order normalized contents).Pairwise sortKeyLe ∧
    ∀ j, j < (find_duplicate_blocks ct hash order normalized contents).length →
      dominatedBy ((find_duplicate_blocks ct hash order normalized contents).take j)
        ((find_duplicate_blocks ct hash order normalized contents).getD j
          defaultCluster) = false := by
  intro ct hash order normalized contents
  constructor
  · have hs : (sortByCmp cmpCluster
        (buildClusters ct hash order normalized contents)).Pairwise sortKeyLe :=
      sortByCmp_pairwise_le _
    have hsub := keepAux_sublist []
      (sortByCmp cmpCluster (buildClusters ct hash order normalized contents))
    rw [List.nil_append] at hsub
    exact hs.sublist hsub
  · exact keepAux_not_dominated defaultCluster _ []
      (by intro j hj; simp at hj)

/-- C3 witness: the one-sided guarantee applied at position 1 of the kept
list of the concrete `subStats` project. -/
theorem c3_subsumption_witness :
    dominatedBy
      ((find_duplicate_blocks demoCt demoHash subKeys subNormalized subContentsL).take 1)
      ((find_duplicate_blocks demoCt demoHash subKeys subNormalized
        subContentsL).getD 1 defaultCluster) = false :=
  (c3_subsumption_invariant demoCt demoHash subKeys subNormalized subContentsL).2 1
    (by decide)

/-- C4 counterexample: the trivial-window filter measures UTF-8 bytes, not
characters.  On two files of three identical Greek lines the single window
text is 20 bytes but only 11 characters, and it does form a cluster —
refuting the claim that windows shorter than 20 characters never form
clusters. -/
theorem c4_short_window_counterexample :
    (find_duplicate_blocks demoCt demoHash greekKeys greekNormalized greekContentsL).length = 1 ∧
    ((find_duplicate_blocks demoCt demoHash greekKeys greekNormalized
        greekContentsL).getD 0 defaultCluster).occurrences = [(0, 0, 2), (1, 0, 2)] ∧
    (get_window_text greekNormalized 0 0).length = 11 ∧
    utf8Len (get_window_text greekNormalized 0 0) = 20 := by
  refine ⟨by decide, by decide, by decide, by decide⟩

/-- C4 (amended: the 20-character minimum is a 20-byte minimum — the source
filters on `combined.len()`, the UTF-8 byte length): every cluster returned
by the detector has at least 2 occurrences, spans at least 2 distinct file
indices, all its occurrences materialize byte-for-byte identical normalized
window text, and that window text is at least 20 bytes long. -/
theorem c4_cluster_invariants : ∀ (ct hash : String → Nat) (order : List Nat)
    (normalized : List (List String)) (contents : List String),
    ∀ c ∈ find_duplicate_blocks ct hash order normalized contents,
    2 ≤ c.occurrences.length ∧
    2 ≤ ((c.occurrences.map (fun o => o.1)).dedup).length ∧
    (∀ o ∈ c.occurrences, ∀ o1 ∈ c.occurrences,
      get_window_text normalized o.1 o.2.1 = get_window_text normalized o1.1 o1.2.1) ∧
    (∀ o ∈ c.occurrences, 20 ≤ utf8Len (get_window_text normalized o.1 o.2.1)) := by
  intro ct hash order normalized contents c hc
  rcases cluster_occ_inv hc with ⟨h1, h2, h3, h4⟩
  exact ⟨h1, h2, h3, fun o ho => (h4 o ho).2.1⟩

/-- C4 witness: the cluster invariants applied to the first cluster of the
concrete dual-file project. -/
theorem c4_cluster_witness :
    2 ≤ ((find_duplicate_blocks demoCt demoHash dualKeys dualNormalized
      dualContents).getD 0 defaultCluster).occurrences.length ∧
    20 ≤ utf8Len (get_window_text dualNormalized 0 0) := by
  have h := c4_cluster_invariants demoCt demoHash dualKeys dualNormalized dualContents
    ((find_duplicate_blocks demoCt demoHash dualKeys dualNormalized
      dualContents).getD 0 defaultCluster) (by decide)
  exact ⟨h.1, h.2.2.2 (0, 0, 2) (by decide)⟩

/-- C5 counterexample: the 30-character minimum on normalized bodies is a
byte minimum.  On a file with two one-line functions whose bodies carry
Greek payloads, the near-duplicate (a, b) is reported although each
normalized body has only 29 characters (44 UTF-8 bytes). -/
theorem c5_byte_counterexample :
    (find_near_duplicates demoCt asciiAlnum greekFnStats.files).map
      (fun n => (n.fn_a, n.fn_b, n.savings)) = [(("a", 0), ("b", 1), 6)] ∧
    (extract_functions asciiAlnum greekFnContent).map
      (fun f => (normalize_line f.body).length) = [29, 29] ∧
    (extract_functions asciiAlnum greekFnContent).map
      (fun f => utf8Len (normalize_line f.body)) = [44, 44] :=
  ⟨by decide, by decide, by decide⟩

/-- C5 (amended: the 30-character minimum is a 30-byte minimum — the source
filters on `norm.len()`, the UTF-8 byte length of the normalized body):
every NearDuplicate pairs two distinct functions of one file (fn_a ≠ fn_b,
their header lines differ), both normalized bodies are at least 30 bytes,
the token-set similarity of the two normalized bodies lies strictly between
0.75 and 1, and `string_similarity` is exactly the claimed formula: both
inputs empty gives 1, exactly one empty gives 0, and otherwise the number of
words of Wa found in Wb by linear membership tests divided by
max(|Wa|, |Wb|). -/
theorem c5_near_duplicate_invariant : ∀ (ct : String → Nat) (isAlnum : Char → Bool)
    (files : List FileStats),
    (∀ nd ∈ find_near_duplicates ct isAlnum files,
      nd.fn_a ≠ nd.fn_b ∧
      ∃ a ∈ extract_functions isAlnum ((files.getD nd.file_idx defaultFile).content),
        ∃ b ∈ extract_functions isAlnum ((files.getD nd.file_idx defaultFile).content),
          nd.fn_a = (a.name, a.line) ∧ nd.fn_b = (b.name, b.line) ∧ a.line < b.line ∧
          30 ≤ utf8Len (normalize_line a.body) ∧ 30 ≤ utf8Len (normalize_line b.body) ∧
          3 / 4 < string_similarity (normalize_line a.body) (normalize_line b.body) ∧
          string_similarity (normalize_line a.body) (normalize_line b.body) < 1) ∧
    string_similarity ("") ("") = 1 ∧
    (∀ s : String, s ≠ "" → string_similarity s ("") = 0 ∧ string_similarity ("") s = 0) ∧
    (∀ x y : String, x ≠ "" → y ≠ "" →
      string_similarity x y =
        (((splitWhitespace x).filter (fun w => (splitWhitespace y).contains w)).length : ℚ) /
          ((max (splitWhitespace x).length (splitWhitespace y).length : Nat) : ℚ)) := by
  intro ct isAlnum files
  refine ⟨?_, ?_, ?_, ?_⟩
  · intro nd hnd
    rcases mem_find_near_duplicates hnd with
      ⟨fidx, file, hen, a, b, hab, h30a, h30b, hsim, _, hndeq⟩
    have hgd : files.getD fidx defaultFile = file := by
      rcases List.mem_enum hen with ⟨hlt, hval⟩
      rw [List.getD_eq_getElem _ _ hlt, hval]
    have hlines : a.line < b.line :=
      allPairs_of_pairwise (extract_functions_lines_lt isAlnum file.content) (a, b) hab
    have hfieq : nd.file_idx = fidx := by rw [hndeq]
    rcases allPairs_mem hab with ⟨ha, hb⟩
    rcases (simInRange_iff _ _).mp hsim with ⟨hs1, hs2⟩
    refine ⟨?_, a, ?_, b, ?_, by rw [hndeq], by rw [hndeq], hlines, h30a, h30b, hs1, hs2⟩
    · rw [hndeq]
      intro heq
      have := (Prod.mk.injEq _ _ _ _).mp heq
      omega
    · rw [hfieq, hgd]; exact ha
    · rw [hfieq, hgd]; exact hb
  · unfold string_similarity
    rw [if_pos ⟨rfl, rfl⟩]
  · intro s hs
    constructor
    · unfold string_similarity
      rw [if_neg (by tauto), if_pos (by tauto)]
    · unfold string_similarity
      rw [if_neg (by tauto), if_pos (by tauto)]
  · intro x y hx hy
    unfold string_similarity
    rw [if_neg (by tauto), if_neg (by tauto)]
    by_cases h3 : max (splitWhitespace x).length (splitWhitespace y).length = 0
    · rw [if_pos h3, h3]
      simp
    · rw [if_neg h3]

/-- C5 witness: the near-duplicate invariant applied to the concrete
near-duplicate of the `ndStats` project. -/
theorem c5_near_duplicate_witness :
    ((find_near_duplicates demoCt asciiAlnum ndStats.files).getD 0 defaultNearDup).fn_a ≠
      ((find_near_duplicates demoCt asciiAlnum ndStats.files).getD 0 defaultNearDup).fn_b :=
  ((c5_near_duplicate_invariant demoCt asciiAlnum ndStats.files).1 _ (by decide)).1

/-- C6 counterexample: the savings arithmetic is integer division, which
floors: a cluster with 7 tokens per instance and two occurrences saves 5
tokens, not 7 × 1 × 0.8 = 5.6. -/
theorem c6_savings_counterexample :
    estimate_savings ⟨[(0, 0, 2), (1, 0, 2)], "", 7⟩ = 5 ∧
    ((estimate_savings ⟨[(0, 0, 2), (1, 0, 2)], "", 7⟩ : Nat) : ℚ) ≠
      (7 : ℚ) * (2 - 1) * (8 / 10) := by
  have h : estimate_savings ⟨[(0, 0, 2), (1, 0, 2)], "", 7⟩ = 5 := by decide
  refine ⟨h, ?_⟩
  rw [h]
  norm_num

/-- C6 (amended: both savings formulas carry the integer-division floor):
cluster savings are ⌊tokens_per_instance × (occurrences − 1) × 0.8⌋, zero
for at most one occurrence; near-duplicate savings are
⌊min(tokens_a, tokens_b) × 0.6⌋ and every reported pair saves at least 5
tokens; and total_savings is the sum of all cluster savings plus all
near-duplicate savings. -/
theorem c6_savings_accounting :
    (∀ c : DuplicateCluster,
      estimate_savings c =
        ⌊(c.tokens_per_instance : ℚ) * ((c.occurrences.length - 1 : Nat) : ℚ) * (8 / 10)⌋₊) ∧
    (∀ c : DuplicateCluster, c.occurrences.length ≤ 1 → estimate_savings c = 0) ∧
    (∀ ta tb : Nat, nearDupSavings ta tb = ⌊((min ta tb : Nat) : ℚ) * (6 / 10)⌋₊) ∧
    (∀ (ct : String → Nat) (isAlnum : Char → Bool) (files : List FileStats),
      ∀ nd ∈ find_near_duplicates ct isAlnum files, 5 ≤ nd.savings) ∧
    (∀ (ct hash : String → Nat) (isAlnum : Char → Bool) (order : List Nat)
        (stats : ProjectStats),
      (runOrdered ct hash isAlnum order stats).total_savings =
        ((runOrdered ct hash isAlnum order stats).clusters.map estimate_savings).sum +
        ((runOrdered ct hash isAlnum order stats).near_dupes.map
          (fun n => n.savings)).sum) := by
  refine ⟨?_, ?_, ?_, ?_, ?_⟩
  · intro c
    unfold estimate_savings
    by_cases hle : c.occurrences.length ≤ 1
    · rw [if_pos hle]
      have h0 : c.occurrences.length - 1 = 0 := by omega
      rw [h0]
      simp
    · rw [if_neg hle]
      have hcast : (c.tokens_per_instance : ℚ) * ((c.occurrences.length - 1 : Nat) : ℚ) *
          (8 / 10) =
          ((c.tokens_per_instance * (c.occurrences.length - 1) * 80 : Nat) : ℚ) /
            ((100 : Nat) : ℚ) := by
        push_cast
        ring
      rw [hcast, Nat.floor_div_nat, Nat.floor_natCast]
  · intro c hle
    unfold estimate_savings
    rw [if_pos hle]
  · intro ta tb
    unfold nearDupSavings
    have hcast : ((min ta tb : Nat) : ℚ) * (6 / 10) =
        ((min ta tb * 60 : Nat) : ℚ) / ((100 : Nat) : ℚ) := by
      push_cast
      ring
    rw [hcast, Nat.floor_div_nat, Nat.floor_natCast]
  · intro ct isAlnum files nd hnd
    rcases mem_find_near_duplicates hnd with ⟨_, _, _, a, b, _, _, _, _, hsav, hndeq⟩
    rw [hndeq]
    exact hsav
  · intro ct hash isAlnum order stats
    rfl

/-- C6 witness: the formulas applied to a single-occurrence cluster and to
the concrete near-duplicate of the `ndStats` project. -/
theorem c6_savings_witness :
    estimate_savings ⟨[(0, 0, 2)], "", 10⟩ = 0 ∧
    5 ≤ ((find_near_duplicates demoCt asciiAlnum ndStats.files).getD 0
      defaultNearDup).savings :=
  ⟨c6_savings_accounting.2.1 _ (by decide),
   c6_savings_accounting.2.2.2.1 demoCt asciiAlnum ndStats.files _ (by decide)⟩

/-- C7 counterexample: a function whose braces never rebalance before the
end of file is emitted with an unbalanced body (`fn foo() \x7b` alone), and
the identifier grammar is Unicode alphanumeric, not `[A-Za-z0-9_]` — with an
alphanumeric table agreeing with Rust on the characters involved (Greek
letters are alphabetic), `fn αβ() \x7b\x7d` yields the name `αβ`. -/
theorem c7_extractor_counterexample :
    extract_functions asciiAlnum ("fn foo() \x7b") = [⟨"foo", 0, "fn foo() \x7b"⟩] ∧
    braceBalance ("fn foo() \x7b") ≠ 0 ∧
    (extract_functions greekAlnum ("fn αβ() \x7b\x7d")).map (fun f => f.name) = ["αβ"] ∧
    isAsciiIdent ("αβ") = false :=
  ⟨by decide, by decide, by decide, by decide⟩

/-- C7 (amended): every emitted FnInfo has a non-empty name whose characters
all satisfy the alphanumeric-or-underscore test (with alphanumeric the
Unicode `char::is_alphanumeric` of the source, a parameter here); the
extractor advances from the header line to the first line containing an
opening brace, its body is the join of the lines from the header through the
computed close line, and either the counted region from the first brace line
through the close line has net brace balance zero, or no close was found
before the end of file and the close line is the first brace line itself. -/
theorem c7_extractor_invariant : ∀ (isAlnum : Char → Bool) (content : String),
    ∀ fi ∈ extract_functions isAlnum content,
      fi.name ≠ "" ∧ fi.name.data.all (fun c => isAlnum c || c == '_') = true ∧
      ∃ bl, findBraceIdx (rustLines content) fi.line = some bl ∧ fi.line ≤ bl ∧
        bl ≤ braceEnd (rustLines content) bl ∧
        fi.body = sliceJoin (rustLines content) fi.line (braceEnd (rustLines content) bl) ∧
        (braceSum (rustLines content) bl (braceEnd (rustLines content) bl) = 0 ∨
          braceEnd (rustLines content) bl = bl) := by
  intro isAlnum content fi h
  have hinv := extractLoop_inv isAlnum (rustLines content)
    ((rustLines content).length + 1) 0 fi h
  exact ⟨hinv.2.1.1, hinv.2.1.2, hinv.2.2⟩

/-- C7 witness: the extractor invariant applied to the single function of a
one-line file. -/
theorem c7_extractor_witness :
    ("f" : String) ≠ "" ∧
    (("f" : String).data.all (fun c => asciiAlnum c || c == '_') = true) ∧
    ∃ bl, findBraceIdx (rustLines ("fn f() \x7b\x7d")) 0 = some bl ∧ 0 ≤ bl ∧
      bl ≤ braceEnd (rustLines ("fn f() \x7b\x7d")) bl ∧
      ("fn f() \x7b\x7d" : String) =
        sliceJoin (rustLines ("fn f() \x7b\x7d")) 0
          (braceEnd (rustLines ("fn f() \x7b\x7d")) bl) ∧
      (braceSum (rustLines ("fn f() \x7b\x7d")) bl
          (braceEnd (rustLines ("fn f() \x7b\x7d")) bl) = 0 ∨
        braceEnd (rustLines ("fn f() \x7b\x7d")) bl = bl) :=
  c7_extractor_invariant asciiAlnum ("fn f() \x7b\x7d")
    ⟨"f", 0, "fn f() \x7b\x7d"⟩ (by decide)

/-- C8: the scanner's roll-up counters are additive over the surviving
files: total_lines and total_tokens are the sums of the per-file lines and
tokens, code + comment + blank lines equal total_lines, and for every file
text the line classifier's three counts sum to the line count. -/
theorem c8_scan_totals : ∀ (ct : String → Nat) (inputs : List (String × String)),
    (scan_project ct inputs).total_lines =
      ((scan_project ct inputs).files.map (fun f => f.lines)).sum ∧
    (scan_project ct inputs).total_tokens =
      ((scan_project ct inputs).files.map (fun f => f.tokens)).sum ∧
    (scan_project ct inputs).code_lines + (scan_project ct inputs).comment_lines +
      (scan_project ct inputs).blank_lines = (scan_project ct inputs).total_lines ∧
    ∀ content : String,
      (count_line_types content).1 + (count_line_types content).2.1 +
        (count_line_types content).2.2 = (rustLines content).length := by
  intro ct inputs
  have h := scan_foldl_inv ct inputs ⟨[], 0, 0, 0, 0, 0⟩ (by simp) (by simp) (by simp)
  exact ⟨h.1, h.2.1, h.2.2, fun content => classifyLines_sum (rustLines content) false⟩

/-- C9: count_tokens maps the empty string to 0 and non-empty strings to at
least 1 (spec-modelled, as the BPE is external); ratio and pct are 0 at zero
denominators; and every FileStats built by the scanner has ratio = 0 exactly
when it has no lines. -/
theorem c9_zero_edges : ∀ ct : String → Nat, TokenizerSpec ct →
    ct ("") = 0 ∧
    (∀ s : String, s ≠ "" → 1 ≤ ct s) ∧
    (∀ t : Nat, ratio t 0 = 0) ∧
    (∀ p : Nat, pct p 0 = 0) ∧
    ∀ inputs : List (String × String), ∀ f ∈ (scan_project ct inputs).files,
      (f.ratio = 0 ↔ f.lines = 0) := by
  intro ct hspec
  refine ⟨hspec.1, hspec.2, ?_, ?_, ?_⟩
  · intro t
    unfold ratio
    rw [if_neg (lt_irrefl 0)]
  · intro p
    unfold pct
    rw [if_neg (lt_irrefl 0)]
  · intro inputs f hf
    unfold scan_project at hf
    rw [scan_foldl_files] at hf
    simp only [List.nil_append, List.mem_map] at hf
    rcases hf with ⟨pc, _, rfl⟩
    simp only [mkFileStats]
    constructor
    · intro h0
      by_contra hL
      have hpos : 0 < (rustLines pc.2).length := Nat.pos_of_ne_zero hL
      rw [ratio, if_pos hpos] at h0
      have hc : pc.2 ≠ "" := by
        intro hemp
        rw [hemp] at hpos
        have hnil : rustLines ("") = [] := by decide
        rw [hnil] at hpos
        simp at hpos
      have h1 : 1 ≤ ct pc.2 := hspec.2 pc.2 hc
      have hq : (0 : ℚ) < (ct pc.2 : ℚ) / ((rustLines pc.2).length : ℚ) :=
        div_pos (by exact_mod_cast h1) (by exact_mod_cast hpos)
      rw [h0] at hq
      exact absurd hq (lt_irrefl 0)
    · intro hL
      rw [ratio, hL, if_neg (lt_irrefl 0)]

/-- C9 witness: the zero-edge properties applied to a concrete tokenizer
satisfying the spec and an empty-content file. -/
theorem c9_zero_witness :
    specCt ("") = 0 ∧ ratio 5 0 = 0 ∧ pct 7 0 = 0 ∧
    (((scan_project specCt [("a.rs", "")]).files.getD 0 defaultFile).ratio = 0 ↔
      ((scan_project specCt [("a.rs", "")]).files.getD 0 defaultFile).lines = 0) := by
  have hspec : TokenizerSpec specCt := ⟨rfl, fun s hs => by simp [specCt, hs]⟩
  have h := c9_zero_edges specCt hspec
  exact ⟨h.1, h.2.2.1 5, h.2.2.2.1 7, h.2.2.2.2 [("a.rs", "")] _ (by decide)⟩

/-- C10: every occurrence `(file_idx, start, end)` of every cluster produced
by the deep analyzer lies inside its file: the file index is in range,
start ≤ end, end is below the file's line count, and end is exactly the
index of the third non-blank normalized line at or after start. -/
theorem c10_occurrence_bounds : ∀ (ct hash : String → Nat) (isAlnum : Char → Bool)
    (order : List Nat) (stats : ProjectStats),
    ∀ c ∈ (runOrdered ct hash isAlnum order stats).clusters, ∀ o ∈ c.occurrences,
    o.1 < stats.files.length ∧
    o.2.1 ≤ o.2.2 ∧
    o.2.2 < (rustLines ((stats.files.getD o.1 defaultFile).content)).length ∧
    ∃ k, idxNth (((normalizedOf stats.files).getD o.1 []).drop o.2.1) 2 = some k ∧
      o.2.2 = o.2.1 + k := by
  intro ct hash isAlnum order stats c hc o ho
  have hc1 : c ∈ find_duplicate_blocks ct hash order (normalizedOf stats.files)
      (stats.files.map (fun f => f.content)) := hc
  rcases cluster_occ_inv hc1 with ⟨_, _, _, h4⟩
  rcases h4 o ho with ⟨hidx, _, k, hk, he, hklt⟩
  have hlen_norm : (normalizedOf stats.files).length = stats.files.length := by
    simp [normalizedOf]
  have hidx1 : o.1 < stats.files.length := by omega
  have hgetD : (normalizedOf stats.files).getD o.1 [] =
      (rustLines ((stats.files.getD o.1 defaultFile).content)).map normalize_line := by
    rw [List.getD_eq_getElem _ _ hidx, List.getD_eq_getElem _ _ hidx1]
    simp [normalizedOf]
  have hlines : ((normalizedOf stats.files).getD o.1 []).length =
      (rustLines ((stats.files.getD o.1 defaultFile).content)).length := by
    rw [hgetD]
    simp
  have hdrop : k < ((normalizedOf stats.files).getD o.1 []).length - o.2.1 := by
    rw [← List.length_drop]
    exact hklt
  exact ⟨hidx1, by omega, by omega, k, hk, he⟩

/-- C10 witness: the bounds applied to the first occurrence of the first
cluster of the concrete dual-file project. -/
theorem c10_occurrence_witness :
    (0 : Nat) < dualStats.files.length ∧
    (0 : Nat) ≤ 2 ∧
    2 < (rustLines ((dualStats.files.getD 0 defaultFile).content)).length ∧
    ∃ k, idxNth (((normalizedOf dualStats.files).getD 0 []).drop 0) 2 = some k ∧
      2 = 0 + k := by
  have h := c10_occurrence_bounds demoCt demoHash asciiAlnum dualKeys dualStats
    (dualRun.clusters.getD 0 defaultCluster) (by decide) (0, 0, 2) (by decide)
  simpa using h

end CargoSyntax
